import Mathlib

/-!
Shallow embedding of the Obsidian "bookmark" plugin (AlexKucera/bookmark).

The repository stores a single transient bookmark inside the note's own text,
as the literal HTML comment `<!-- bookmark-marker -->` appended to a line.
The definitions below translate, line by line, the relevant code paths:

* `estimatePreviewLine` / `getVisibleLineInPreview` — the rendered/preview-mode
  viewport line estimator (`main.ts` `getVisibleLineInPreview`).
* `splitLines`, `joinWith` — the `content.split(/\r?\n/)` / `lines.join(eol)`
  string plumbing used by the preview-mode content transforms.
* `resolveTargetPreview`, `previewInsertTransform` — the preview-mode insertion
  callback passed to `Vault.process` (frontmatter avoidance, idempotent append).
* `deferredRemoveTransform` — the deferred (500 ms) removal callback passed to
  `Vault.process`.
* `stripBefore`/`stripAfter`/`cleanupStrip` — the document-wide cleanup
  (`cleanupMultipleBookmarks`), i.e. the two global regex replacements
  `\s*MARKER` then `MARKER\s*`.
* `resolveTargetEditable` — the editable-mode placement policy (its source file
  `bookmarkManager.ts` is not part of the sources; modelled from the spec).
* `buildDecorations` — the CodeMirror decoration builder
  (`BookmarkDecorationPlugin.buildDecorations`).

Strings are modelled as `List Char`; JavaScript numbers that feed arithmetic
are modelled as `ℚ` with `Int.floor` for `Math.floor`.
-/

namespace Bookmark

/-- The marker token, `BOOKMARK_MARKER` from `constants.ts`. -/
def BOOKMARK_MARKER : String := "<!-- bookmark-marker -->"

/-- The marker token as a character list. -/
def markerL : List Char := BOOKMARK_MARKER.data

/- ### Viewport line estimator (rendered / preview mode) -/

/-- The arithmetic core of `getVisibleLineInPreview` (`main.ts`): the code in
the `try` block.  `scroll` is the host-reported scroll value
(`view.previewMode.getScroll()`), `scrollHeight` the content extent
(`containerEl.scrollHeight`), `totalLines` the editor line count.
A scroll value `≤ 100` is treated as a percentage, a larger one as pixels;
the estimated line is `Math.floor(fraction * totalLines)` clamped via
`Math.min(Math.max(0, estimatedLine), totalLines - 1)`. -/
def estimatePreviewLine (scroll scrollHeight : ℚ) (totalLines : ℕ) : ℤ :=
  let scrollPercentage : ℚ :=
    if scroll ≤ 100 then scroll / 100 else scroll / scrollHeight
  let estimatedLine : ℤ := ⌊scrollPercentage * (totalLines : ℚ)⌋
  min (max 0 estimatedLine) ((totalLines : ℤ) - 1)

/-- Function `getVisibleLineInPreview` with its `try`/`catch`: reading the scroll
position and extents from the host may fail; a failure (`Except.error`) is
caught and the function falls back to line `0`.  The function is total: no
error value escapes to the caller. -/
def getVisibleLineInPreview (reading : Except String (ℚ × ℚ)) (totalLines : ℕ) : ℤ :=
  match reading with
  | .error _ => 0
  | .ok (scroll, scrollHeight) => estimatePreviewLine scroll scrollHeight totalLines

/- ### String plumbing: split on `\r?\n`, join with a detected EOL -/

/-- Prepend a character to the first piece of a split (helper for
`splitLines`). -/
def consHead (c : Char) : List (List Char) → List (List Char)
  | [] => [[c]]
  | l :: ls => (c :: l) :: ls

/-- Model of `content.split(/\r?\n/)`: split on `\n`, also consuming an immediately
preceding `\r`.  A `\r` not followed by `\n` stays inside its line. -/
def splitLines : List Char → List (List Char)
  | [] => [[]]
  | '\r' :: '\n' :: rest => [] :: splitLines rest
  | '\n' :: rest => [] :: splitLines rest
  | c :: rest => consHead c (splitLines rest)

/-- Model of `pieces.join(sep)` (JavaScript `Array.prototype.join`). -/
def joinWith (sep : List Char) : List (List Char) → List Char
  | [] => []
  | [l] => l
  | l :: ls => l ++ sep ++ joinWith sep ls

/-- Whether `pat` occurs as a contiguous subsequence (`String.includes`). -/
def containsSeq (pat : List Char) : List Char → Bool
  | [] => pat.isPrefixOf []
  | c :: rest => pat.isPrefixOf (c :: rest) || containsSeq pat rest

/-- Model of `lineContent.includes(BOOKMARK_MARKER)`. -/
def hasM (cs : List Char) : Bool := containsSeq markerL cs

/-- Model of `content.includes('\r\n')`, the EOL-detection test. -/
def hasCRLF (cs : List Char) : Bool := containsSeq ['\r', '\n'] cs

/-- Model of `lineContent.indexOf(pat)`: index of the first occurrence, `none` for
JavaScript's `-1`. -/
def idxOfSeq (pat : List Char) : List Char → Option ℕ
  | [] => if pat.isPrefixOf ([] : List Char) then some 0 else none
  | c :: rest =>
    if pat.isPrefixOf (c :: rest) then some 0
    else (idxOfSeq pat rest).map (· + 1)

end Bookmark

namespace Bookmark

/- ### Basic lemmas about the plumbing -/

theorem containsSeq_infix_iff (pat cs : List Char) :
    containsSeq pat cs = true ↔ pat <:+: cs := by
  induction cs with
  | nil =>
    simp [containsSeq, List.isPrefixOf_iff_prefix]
  | cons c rest ih =>
    simp only [containsSeq, Bool.or_eq_true, List.isPrefixOf_iff_prefix, ih]
    constructor
    · rintro (h | h)
      · exact h.isInfix
      · exact List.infix_cons h
    · intro h
      rcases List.infix_cons_iff.mp h with h | h
      · exact Or.inl h
      · exact Or.inr h

theorem hasM_eq_false_iff (cs : List Char) :
    hasM cs = false ↔ ¬ markerL <:+: cs := by
  rw [hasM, ← containsSeq_infix_iff]
  simp

/- Unfolding equations for `splitLines`. -/

theorem splitLines_nil : splitLines [] = [[]] := rfl

theorem splitLines_crlf (rest : List Char) :
    splitLines ('\r' :: '\n' :: rest) = [] :: splitLines rest := rfl

theorem splitLines_lf (rest : List Char) :
    splitLines ('\n' :: rest) = [] :: splitLines rest := rfl

theorem splitLines_cons_default (c : Char) (rest : List Char)
    (h1 : ∀ r2, c = '\r' → rest = '\n' :: r2 → False) (h2 : ¬ c = '\n') :
    splitLines (c :: rest) = consHead c (splitLines rest) := by
  rw [splitLines.eq_def]
  split
  next heq => exact absurd heq (by simp)
  next r2 heq =>
    injection heq with hc hr
    exact ((h1 r2 hc hr)).elim
  next r2 heq =>
    injection heq with hc hr
    exact (h2 hc).elim
  next c2 r2 g1 g2 heq =>
    injection heq with hc hr
    subst hc hr
    rfl

theorem consHead_ne_nil (c : Char) (ls : List (List Char)) : consHead c ls ≠ [] := by
  cases ls <;> simp [consHead]

/-- Function `splitLines` never returns the empty list of pieces. -/
theorem splitLines_ne_nil (cs : List Char) : splitLines cs ≠ [] := by
  induction cs using splitLines.induct with
  | case1 => simp [splitLines_nil]
  | case2 rest ih => simp [splitLines_crlf]
  | case3 rest ih => simp [splitLines_lf]
  | case4 c rest h1 h2 ih =>
    rw [splitLines_cons_default c rest h1 h2]
    exact consHead_ne_nil c _

/-- The first piece of `splitLines cs` is a prefix of `cs`. -/
theorem splitLines_head_prefix (cs : List Char) :
    ∀ l ls, splitLines cs = l :: ls → l <+: cs := by
  induction cs using splitLines.induct with
  | case1 =>
    intro l ls h
    rw [splitLines_nil] at h
    cases h
    exact List.nil_prefix
  | case2 rest ih =>
    intro l ls h
    rw [splitLines_crlf] at h
    cases h
    exact List.nil_prefix
  | case3 rest ih =>
    intro l ls h
    rw [splitLines_lf] at h
    cases h
    exact List.nil_prefix
  | case4 c rest h1 h2 ih =>
    intro l ls h
    rw [splitLines_cons_default c rest h1 h2] at h
    cases hs : splitLines rest with
    | nil => exact absurd hs (splitLines_ne_nil rest)
    | cons l2 ls2 =>
      rw [hs] at h
      simp only [consHead] at h
      injection h with h3 h4
      subst h3
      exact (List.cons_prefix_cons).mpr ⟨rfl, ih l2 ls2 hs⟩

/-- Every piece of `splitLines cs` occurs contiguously in `cs`. -/
theorem splitLines_infix_of_piece (cs : List Char) :
    ∀ p ∈ splitLines cs, p <:+: cs := by
  induction cs using splitLines.induct with
  | case1 =>
    intro p hp
    rw [splitLines_nil] at hp
    simp at hp
    simp [hp]
  | case2 rest ih =>
    intro p hp
    rw [splitLines_crlf] at hp
    rcases List.mem_cons.mp hp with h | h
    · simp [h]
    · exact List.infix_cons (List.infix_cons (ih p h))
  | case3 rest ih =>
    intro p hp
    rw [splitLines_lf] at hp
    rcases List.mem_cons.mp hp with h | h
    · simp [h]
    · exact List.infix_cons (ih p h)
  | case4 c rest h1 h2 ih =>
    intro p hp
    rw [splitLines_cons_default c rest h1 h2] at hp
    cases hs : splitLines rest with
    | nil => exact absurd hs (splitLines_ne_nil rest)
    | cons l2 ls2 =>
      rw [hs] at hp
      simp only [consHead] at hp
      rcases List.mem_cons.mp hp with h | h
      · subst h
        exact ((List.cons_prefix_cons).mpr
          ⟨rfl, splitLines_head_prefix rest l2 ls2 hs⟩).isInfix
      · exact List.infix_cons (ih p (hs ▸ List.mem_cons_of_mem l2 h))

/- ### Line-ending observables -/

/-- Whether the text contains a line-feed character. -/
def hasLF (cs : List Char) : Bool := cs.any (fun c => c == '\n')

/-- Whether the text contains a carriage-return character. -/
def hasCR (cs : List Char) : Bool := cs.any (fun c => c == '\r')

/-- Scan for a `\n` that is not immediately preceded by `\r`; `prev` is the
character preceding the current position. -/
def loneLFAux : Char → List Char → Bool
  | _, [] => false
  | prev, c :: rest => (c == '\n' && !(prev == '\r')) || loneLFAux c rest

/-- Whether the text contains a line feed that is not part of a `\r\n` pair.
A text with `hasLoneLF = false` uses CRLF for every line break it contains. -/
def hasLoneLF (cs : List Char) : Bool := loneLFAux 'x' cs

theorem hasLF_eq_false_iff (cs : List Char) :
    hasLF cs = false ↔ ∀ c ∈ cs, c ≠ '\n' := by
  simp [hasLF]

theorem hasCR_eq_false_iff (cs : List Char) :
    hasCR cs = false ↔ ∀ c ∈ cs, c ≠ '\r' := by
  simp [hasCR]

theorem hasCR_append (l r : List Char) :
    hasCR (l ++ r) = (hasCR l || hasCR r) := by
  simp [hasCR]

/-- Pieces produced by `splitLines` never contain a line feed. -/
theorem splitLines_piece_no_LF (cs : List Char) :
    ∀ p ∈ splitLines cs, hasLF p = false := by
  induction cs using splitLines.induct with
  | case1 =>
    intro p hp
    rw [splitLines_nil] at hp
    simp at hp
    simp [hp, hasLF]
  | case2 rest ih =>
    intro p hp
    rw [splitLines_crlf] at hp
    rcases List.mem_cons.mp hp with h | h
    · simp [h, hasLF]
    · exact ih p h
  | case3 rest ih =>
    intro p hp
    rw [splitLines_lf] at hp
    rcases List.mem_cons.mp hp with h | h
    · simp [h, hasLF]
    · exact ih p h
  | case4 c rest h1 h2 ih =>
    intro p hp
    rw [splitLines_cons_default c rest h1 h2] at hp
    cases hs : splitLines rest with
    | nil => exact absurd hs (splitLines_ne_nil rest)
    | cons l2 ls2 =>
      rw [hs] at hp
      simp only [consHead] at hp
      rcases List.mem_cons.mp hp with h | h
      · subst h
        rw [hasLF_eq_false_iff]
        intro x hx
        rcases List.mem_cons.mp hx with h | h
        · subst h; exact h2
        · exact (hasLF_eq_false_iff l2).mp (ih l2 (hs ▸ List.mem_cons_self l2 ls2)) x h
      · exact ih p (hs ▸ List.mem_cons_of_mem l2 h)

/-- If the whole text has no carriage return, neither does any piece. -/
theorem splitLines_piece_no_CR (cs : List Char) (h : hasCR cs = false) :
    ∀ p ∈ splitLines cs, hasCR p = false := by
  intro p hp
  rw [hasCR_eq_false_iff]
  intro c hc
  exact (hasCR_eq_false_iff cs).mp h c ((splitLines_infix_of_piece cs p hp).subset hc)

/- Unfolding equations for `joinWith`. -/

theorem joinWith_nil (sep : List Char) : joinWith sep [] = [] := rfl

theorem joinWith_single (sep l : List Char) : joinWith sep [l] = l := rfl

theorem joinWith_cons2 (sep l l2 : List Char) (ls : List (List Char)) :
    joinWith sep (l :: l2 :: ls) = l ++ sep ++ joinWith sep (l2 :: ls) := rfl

/-- Scanning an LF-free chunk just updates the `prev` character. -/
theorem loneLFAux_append (l : List Char) (h : hasLF l = false) :
    ∀ (prev : Char) (r : List Char),
      loneLFAux prev (l ++ r) = loneLFAux (l.getLastD prev) r := by
  induction l with
  | nil => intro prev r; simp [loneLFAux]
  | cons c l ih =>
    intro prev r
    have hc : (c == '\n') = false := by
      have := (hasLF_eq_false_iff _).mp h c (List.mem_cons_self c l)
      simp [this]
    have hl : hasLF l = false := by
      rw [hasLF_eq_false_iff]
      intro x hx
      exact (hasLF_eq_false_iff _).mp h x (List.mem_cons_of_mem c hx)
    simp only [List.cons_append, loneLFAux, hc, Bool.false_and, Bool.false_or,
      List.getLastD_cons]
    exact ih hl c r

/-- Joining LF-free pieces with CRLF yields a text with no lone line feed. -/
theorem joinWith_crlf_no_loneLF :
    ∀ (pieces : List (List Char)), (∀ p ∈ pieces, hasLF p = false) →
      ∀ prev, loneLFAux prev (joinWith ['\r', '\n'] pieces) = false := by
  intro pieces
  induction pieces with
  | nil => intro _ prev; simp [joinWith_nil, loneLFAux]
  | cons l ls ih =>
    intro h prev
    cases ls with
    | nil =>
      rw [joinWith_single]
      have := loneLFAux_append l (h l (List.mem_cons_self l [])) prev []
      rw [List.append_nil] at this
      rw [this]
      rfl
    | cons l2 ls2 =>
      rw [joinWith_cons2]
      have h1 : hasLF l = false := h l (List.mem_cons_self _ _)
      have hrest : ∀ p ∈ l2 :: ls2, hasLF p = false := by
        intro p hp
        exact h p (List.mem_cons_of_mem l hp)
      rw [List.append_assoc, loneLFAux_append l h1 prev]
      simp only [List.cons_append, List.nil_append, loneLFAux,
        show ('\r' == '\n') = false by decide, show ('\r' == '\r') = true by decide,
        show ('\n' == '\n') = true by decide, Bool.false_and, Bool.not_true,
        Bool.and_false, Bool.true_and, Bool.false_or]
      exact ih hrest '\n'

/-- Joining CR-free pieces with LF yields a CR-free text. -/
theorem joinWith_lf_no_CR :
    ∀ (pieces : List (List Char)), (∀ p ∈ pieces, hasCR p = false) →
      hasCR (joinWith ['\n'] pieces) = false := by
  intro pieces
  induction pieces with
  | nil => intro _; rfl
  | cons l ls ih =>
    intro h
    cases ls with
    | nil => exact h l (List.mem_cons_self _ _)
    | cons l2 ls2 =>
      rw [joinWith_cons2, hasCR_append, hasCR_append]
      rw [h l (List.mem_cons_self _ _), ih (fun p hp => h p (List.mem_cons_of_mem l hp))]
      rfl

/- ### Frontmatter parsing and preview-mode insertion (`toggleBookmark`,
preview branch, `src/unnamed/part_001` lines 163–195) -/

/-- The frontmatter scan of the preview insertion callback: if the first line
is `---`, the index of the first subsequent `---` line (the closing
delimiter); `none` when the document does not start with `---` or no closing
delimiter exists (JavaScript `frontmatterEndIndex = -1`). -/
def findFrontmatterEnd (lines : List (List Char)) : Option ℕ :=
  match lines with
  | [] => none
  | first :: rest =>
    if first = "---".data then
      (rest.findIdx? (fun l => l == "---".data)).map (· + 1)
    else none

/-- Model of `if (frontmatterEndIndex !== -1 && targetLine <= frontmatterEndIndex)
targetLine = Math.min(frontmatterEndIndex + 1, lines.length - 1)`. -/
def headerAvoid (lines : List (List Char)) (cand : ℕ) : ℕ :=
  match findFrontmatterEnd lines with
  | some j => if cand ≤ j then min (j + 1) (lines.length - 1) else cand
  | none => cand

/-- The insertion-target resolution of the preview-mode insertion callback:
clamp the candidate to the last line, relocate out of the frontmatter block,
clamp again (`Math.max(0, ...)` is the identity on `ℕ`). -/
def resolveTargetPreview (lines : List (List Char)) (visibleLine : ℕ) : ℕ :=
  min (headerAvoid lines (min visibleLine (lines.length - 1))) (lines.length - 1)

/-- Model of `if (!lineContent.includes(BOOKMARK_MARKER)) lines[targetLine] =
lineContent + ' ' + BOOKMARK_MARKER` — the per-line marker insertion. -/
def insertMarkerAtEndOfLine (l : List Char) : List Char :=
  if hasM l then l else l ++ ' ' :: markerL

/-- The whole preview-mode insertion callback passed to `Vault.process`:
detect the EOL convention, split, resolve the target line, append the marker
(idempotently), rejoin with the detected EOL. -/
def previewInsertTransform (visibleLine : ℕ) (content : List Char) : List Char :=
  let eol := if hasCRLF content then ['\r', '\n'] else ['\n']
  let lines := splitLines content
  let t := resolveTargetPreview lines visibleLine
  joinWith eol (lines.set t (insertMarkerAtEndOfLine (lines.getD t [])))

/- ### Marker lookup and the deferred removal (`src/unnamed/part_001`
lines 109–137) -/

/-- Modelled from the spec: `MarkerCodec.find` (`BookmarkManager.findBookmark`
in `bookmarkManager.ts`, which is not among the provided sources) scans lines
top-to-bottom and returns the first line containing the marker token;
`none` models `{hasBookmark: false, lineNumber: null}`. -/
def findBookmark (content : List Char) : Option ℕ :=
  (splitLines content).findIdx? hasM

/-- The per-line removal step of the deferred removal callback: find the first
marker occurrence, also swallow one immediately preceding space, and splice
the line back together.  `none` (JavaScript `markerIndex === -1`) leaves the
line unchanged. -/
def removeMarkerOnce (lineContent : List Char) : List Char :=
  match idxOfSeq markerL lineContent with
  | none => lineContent
  | some mi =>
    let startPos := if 0 < mi ∧ lineContent.getD (mi - 1) '\x00' = ' ' then mi - 1 else mi
    lineContent.take startPos ++ lineContent.drop (mi + markerL.length)

/-- The deferred (500 ms) removal callback passed to `Vault.process`: re-find
the marker in the then-current content; if present, rewrite that line and
rejoin with the detected EOL; otherwise return the content unchanged. -/
def deferredRemoveTransform (content : List Char) : List Char :=
  match findBookmark content with
  | none => content
  | some n =>
    let eol := if hasCRLF content then ['\r', '\n'] else ['\n']
    let lines := splitLines content
    match lines[n]? with
    | none => content
    | some lineContent => joinWith eol (lines.set n (removeMarkerOnce lineContent))

/- ### Document-wide cleanup (`cleanupMultipleBookmarks`,
`src/unnamed/part_001` lines 241–267) -/

/-- JavaScript `\s` on the characters relevant here (ASCII whitespace). -/
def isWsChar (c : Char) : Bool :=
  c == ' ' || c == '\t' || c == '\n' || c == '\r' || c == '\x0b' || c == '\x0c'

/-- Length of the leading whitespace run. -/
def wsCount : List Char → ℕ
  | [] => 0
  | c :: rest => if isWsChar c then wsCount rest + 1 else 0

/-- Single left-to-right pass of `content.replace(/\s*MARKER/g, '')`: at each
position, if a (maximal) whitespace run followed by the marker starts here,
drop it and continue after the match; otherwise keep the character.  The fuel
is the input length, which bounds the number of steps. -/
def stripBeforeAux : ℕ → List Char → List Char
  | 0, cs => cs
  | _ + 1, [] => []
  | fuel + 1, c :: rest =>
    let k := wsCount (c :: rest)
    if markerL.isPrefixOf ((c :: rest).drop k) then
      stripBeforeAux fuel ((c :: rest).drop (k + markerL.length))
    else
      c :: stripBeforeAux fuel rest

/-- Model of `content.replace(/\s*MARKER/g, '')` (the `beforeRe` pass). -/
def stripBefore (cs : List Char) : List Char := stripBeforeAux cs.length cs

/-- Single left-to-right pass of `content.replace(/MARKER\s*/g, '')`. -/
def stripAfterAux : ℕ → List Char → List Char
  | 0, cs => cs
  | _ + 1, [] => []
  | fuel + 1, c :: rest =>
    if markerL.isPrefixOf (c :: rest) then
      stripAfterAux fuel
        (((c :: rest).drop markerL.length).drop (wsCount ((c :: rest).drop markerL.length)))
    else
      c :: stripAfterAux fuel rest

/-- Model of `content.replace(/MARKER\s*/g, '')` (the `afterRe` pass). -/
def stripAfter (cs : List Char) : List Char := stripAfterAux cs.length cs

/-- The document-wide cleanup `cleanupMultipleBookmarks`: the `beforeRe` pass
followed by the `afterRe` pass. -/
def cleanupStrip (cs : List Char) : List Char := stripAfter (stripBefore cs)

/- ### Editable-mode placement policy (spec-modelled) -/

/-- The fence token. -/
def fenceTok : List Char := "```".data

/-- Modelled from the spec: a fence-delimiter line is a line whose content
begins with the fence token (`bookmarkManager.ts` is not among the provided
sources). -/
def isFenceLine (l : List Char) : Bool := fenceTok.isPrefixOf l

/-- Modelled from the spec: a line is inside a fence iff the count of
fence-delimiter lines at or before it is odd. -/
def insideFence (lines : List (List Char)) (i : ℕ) : Bool :=
  ((lines.take (i + 1)).countP isFenceLine) % 2 == 1

/-- Number of fence-delimiter lines strictly before line `i`. -/
def fencesBefore (lines : List (List Char)) (i : ℕ) : ℕ :=
  (lines.take i).countP isFenceLine

/-- Modelled from the spec: a line is an OPENING fence-delimiter line iff it
is a fence-delimiter line preceded by an even number of fence-delimiter lines
(fence lines alternate opener/closer from the top of the document). -/
def isOpeningFence (lines : List (List Char)) (i : ℕ) : Bool :=
  isFenceLine (lines.getD i []) && fencesBefore lines i % 2 == 0

/-- Modelled from the spec: walk backward from the candidate to the opening
fence-delimiter line, i.e. the nearest line at or before the candidate that
is an opening fence delimiter.  For a candidate inside a fence or on either
of its delimiters this is the region's opening delimiter. -/
def walkBackFence (lines : List (List Char)) : ℕ → Option ℕ
  | 0 => if isOpeningFence lines 0 then some 0 else none
  | i + 1 =>
    if isOpeningFence lines (i + 1) then some (i + 1) else walkBackFence lines i

/-- Modelled from the spec: `PlacementPolicy.resolveTarget` for the
editable-mode insertion path (`bookmarkManager.ts` is not among the provided
sources).  Rules in order: metadata-header avoidance, fenced-block avoidance
(retarget to the line before the opening fence when it has one, else fall back
to the start of the document with header avoidance re-applied), final clamp. -/
def resolveTargetEditable (lines : List (List Char)) (cand0 : ℕ) : ℕ :=
  let lastIdx := lines.length - 1
  let c1 := headerAvoid lines (min cand0 lastIdx)
  let c2 :=
    if isFenceLine (lines.getD c1 []) || insideFence lines c1 then
      match walkBackFence lines c1 with
      | some i => if 0 < i then i - 1 else headerAvoid lines 0
      | none => c1
    else c1
  min c2 lastIdx

/- ### Decoration builder (`BookmarkDecorationPlugin.buildDecorations`,
`src/unnamed/part_003` lines 41–78) -/

/-- A CodeMirror decoration as produced by the builder: a line highlight
anchored at the line-start position, or a hidden-text mark over a character
range. -/
inductive Deco where
  | lineHighlight (pos : ℕ)
  | markHidden (startPos endPos : ℕ)
deriving DecidableEq, Repr

/-- Whether a decoration is a line highlight. -/
def Deco.isLine : Deco → Bool
  | .lineHighlight _ => true
  | _ => false

/-- Whether a decoration is a hidden-text mark. -/
def Deco.isMark : Deco → Bool
  | .markHidden _ _ => true
  | _ => false

/-- Model of `content.split('\n')`: the decoration builder splits on `\n` only. -/
def splitLF : List Char → List (List Char)
  | [] => [[]]
  | '\n' :: rest => [] :: splitLF rest
  | c :: rest => consHead c (splitLF rest)

/-- The per-line loop of `buildDecorations`: for each line containing the
marker, a line highlight at the line start plus one hidden-text mark over the
first marker occurrence (`lineContent.indexOf(BOOKMARK_MARKER)`); `off` is
the document position of the current line start (`doc.line(i+1).from`). -/
def buildDecosAux (off : ℕ) : List (List Char) → List Deco
  | [] => []
  | l :: ls =>
    (if hasM l then
      Deco.lineHighlight off ::
        (match idxOfSeq markerL l with
         | some ms => [Deco.markHidden (off + ms) (off + ms + markerL.length)]
         | none => [])
     else []) ++ buildDecosAux (off + l.length + 1) ls

/-- Model of `BookmarkDecorationPlugin.buildDecorations` over the document text. -/
def buildDecorations (content : List Char) : List Deco :=
  buildDecosAux 0 (splitLF content)

/-- Specification-side list: exactly one line highlight per line containing
the marker, anchored at the line start. -/
def lineHighlightSpec (off : ℕ) : List (List Char) → List Deco
  | [] => []
  | l :: ls =>
    (if hasM l then [Deco.lineHighlight off] else []) ++
      lineHighlightSpec (off + l.length + 1) ls

/-- Specification-side list: exactly one hidden-text range per line containing
the marker, covering only the first marker occurrence on that line. -/
def hiddenRangeSpec (off : ℕ) : List (List Char) → List Deco
  | [] => []
  | l :: ls =>
    (if hasM l then
      match idxOfSeq markerL l with
      | some ms => [Deco.markHidden (off + ms) (off + ms + markerL.length)]
      | none => []
     else []) ++ hiddenRangeSpec (off + l.length + 1) ls

/- ### C1, C2, C9 — the rendered-mode estimator -/

/-- C1 — Rendered-mode unit disambiguation: a host-reported scroll value of at
most 100 is interpreted as a percentage (`fraction = scrollOffset / 100`), a
value above 100 as a pixel offset (`fraction = scrollOffset / contentExtent`);
the returned line is `floor(fraction * totalLines)` clamped to
`[0, totalLines - 1]`.  In particular the sample
`{scrollOffset: 50, contentExtent: 1000, totalLines: 100}` yields line 50, and
`{scrollOffset: 500, contentExtent: 1000, totalLines: 100}` also yields
line 50. -/
theorem rendered_unit_disambiguation :
    (∀ (scroll scrollHeight : ℚ) (totalLines : ℕ), scroll ≤ 100 →
      estimatePreviewLine scroll scrollHeight totalLines =
        min (max 0 ⌊scroll / 100 * (totalLines : ℚ)⌋) ((totalLines : ℤ) - 1)) ∧
    (∀ (scroll scrollHeight : ℚ) (totalLines : ℕ), 100 < scroll →
      estimatePreviewLine scroll scrollHeight totalLines =
        min (max 0 ⌊scroll / scrollHeight * (totalLines : ℚ)⌋) ((totalLines : ℤ) - 1)) ∧
    estimatePreviewLine 50 1000 100 = 50 ∧
    estimatePreviewLine 500 1000 100 = 50 := by
  refine ⟨?_, ?_, ?_, ?_⟩
  · intro scroll scrollHeight totalLines h
    simp only [estimatePreviewLine, if_pos h]
  · intro scroll scrollHeight totalLines h
    simp only [estimatePreviewLine, if_neg (not_le.mpr h)]
  · norm_num [estimatePreviewLine]
  · norm_num [estimatePreviewLine]

/-- Witness for C1 at the first sample. -/
theorem rendered_unit_disambiguation_witness :
    (50 : ℚ) ≤ 100 ∧
    estimatePreviewLine 50 1000 100 =
      min (max 0 ⌊(50 : ℚ) / 100 * ((100 : ℕ) : ℚ)⌋) (((100 : ℕ) : ℤ) - 1) :=
  ⟨by norm_num, rendered_unit_disambiguation.1 50 1000 100 (by norm_num)⟩

/-- C2 — Estimator bounds: for every input with `totalLines > 0` and any
scroll offset and extents, the estimator returns an integer in
`[0, totalLines - 1]`. -/
theorem estimator_bounds (scroll scrollHeight : ℚ) (totalLines : ℕ)
    (h : 0 < totalLines) :
    0 ≤ estimatePreviewLine scroll scrollHeight totalLines ∧
    estimatePreviewLine scroll scrollHeight totalLines ≤ (totalLines : ℤ) - 1 := by
  have h1 : (1 : ℤ) ≤ (totalLines : ℤ) := by exact_mod_cast h
  unfold estimatePreviewLine
  constructor
  · exact le_min (le_max_left 0 _) (by omega)
  · exact min_le_right _ _

/-- Witness for C2. -/
theorem estimator_bounds_witness :
    0 < 1 ∧
    (0 ≤ estimatePreviewLine 0 0 1 ∧ estimatePreviewLine 0 0 1 ≤ ((1 : ℕ) : ℤ) - 1) :=
  ⟨by decide, estimator_bounds 0 0 1 (by decide)⟩

/-- C9 — Estimation-failure fallback: when reading the scroll position or
content extents fails (the host raises, modelled as `Except.error`), the
estimator returns line 0; the function is total, so no error reaches the
caller. -/
theorem estimation_failure_fallback (err : String) (totalLines : ℕ) :
    getVisibleLineInPreview (Except.error err) totalLines = 0 := rfl

/- ### C3 — metadata-header avoidance -/

/-- C3 — Metadata-header avoidance: whenever the document starts with the
header delimiter and has a matching closing delimiter at index `j` (this is
exactly `findFrontmatterEnd = some j`), any candidate line within the header
block (`visibleLine ≤ j`) is relocated to the line immediately after the
closing delimiter, clamped to the last valid line index; in particular for
`["---", "title: x", "---", "body"]` and candidate 1 the resolved target is
line 3. -/
theorem metadata_header_avoidance :
    (∀ (lines : List (List Char)) (visibleLine j : ℕ),
      findFrontmatterEnd lines = some j → visibleLine ≤ j →
      resolveTargetPreview lines visibleLine = min (j + 1) (lines.length - 1)) ∧
    resolveTargetPreview ["---".data, "title: x".data, "---".data, "body".data] 1 = 3 := by
  constructor
  · intro lines visibleLine j hfm hle
    have hcond : min visibleLine (lines.length - 1) ≤ j :=
      le_trans (min_le_left _ _) hle
    simp only [resolveTargetPreview, headerAvoid, hfm, if_pos hcond]
    omega
  · decide

/-- Witness for C3 at the spec's sample document. -/
theorem metadata_header_avoidance_witness :
    findFrontmatterEnd ["---".data, "title: x".data, "---".data, "body".data] = some 2 ∧
    resolveTargetPreview ["---".data, "title: x".data, "---".data, "body".data] 1 =
      min (2 + 1) ((["---".data, "title: x".data, "---".data, "body".data] :
        List (List Char)).length - 1) :=
  ⟨by decide,
    metadata_header_avoidance.1 ["---".data, "title: x".data, "---".data, "body".data]
      1 2 (by decide) (by decide)⟩

/- ### C4 — fenced-block avoidance (spec-modelled) -/

theorem walkBackFence_le (lines : List (List Char)) :
    ∀ n i, walkBackFence lines n = some i → i ≤ n := by
  intro n
  induction n with
  | zero =>
    intro i h
    simp only [walkBackFence] at h
    split at h
    · cases h; exact le_refl 0
    · cases h
  | succ n ih =>
    intro i h
    simp only [walkBackFence] at h
    split at h
    · cases h; exact le_refl _
    · exact le_trans (ih i h) (Nat.le_succ n)

/-- The backward walk only ever returns an OPENING fence-delimiter line. -/
theorem walkBackFence_opening (lines : List (List Char)) :
    ∀ n i, walkBackFence lines n = some i → isOpeningFence lines i = true := by
  intro n
  induction n with
  | zero =>
    intro i h
    simp only [walkBackFence] at h
    split at h
    next hp => cases h; exact hp
    next => cases h
  | succ n ih =>
    intro i h
    simp only [walkBackFence] at h
    split at h
    next hp => cases h; exact hp
    next => exact ih i h

/-- C4 — Fenced-block avoidance (editable-mode insertion path, modelled from
the spec since `bookmarkManager.ts` is not among the provided sources): for a
document without frontmatter, whenever the candidate line is a fence-delimiter
line or lies inside a fenced region, and the backward walk finds the opening
fence-delimiter line at index `i > 0`, the resolved target is `i - 1`, which
is never inside a fenced region; in particular for
`["a", "```", "code", "```", "b"]` both candidate 2 (inside the fence) and
candidate 3 (the closing delimiter) resolve to line 0, the line before the
opening fence. -/
theorem fenced_block_avoidance :
    (∀ (lines : List (List Char)) (cand i : ℕ),
      findFrontmatterEnd lines = none → cand < lines.length →
      (isFenceLine (lines.getD cand []) || insideFence lines cand) = true →
      walkBackFence lines cand = some i → 0 < i →
      resolveTargetEditable lines cand = i - 1 ∧
        insideFence lines (i - 1) = false) ∧
    resolveTargetEditable
      ["a".data, "```".data, "code".data, "```".data, "b".data] 2 = 0 ∧
    resolveTargetEditable
      ["a".data, "```".data, "code".data, "```".data, "b".data] 3 = 0 := by
  refine ⟨?_, by decide, by decide⟩
  intro lines cand i hfm hlt hcond hwalk hi
  have hmin : min cand (lines.length - 1) = cand := Nat.min_eq_left (by omega)
  have hle : i ≤ cand := walkBackFence_le lines cand i hwalk
  constructor
  · simp only [resolveTargetEditable, headerAvoid, hfm, hmin, hcond, if_true,
      hwalk, if_pos hi]
    omega
  · have hop := walkBackFence_opening lines cand i hwalk
    rw [isOpeningFence, Bool.and_eq_true] at hop
    have heven : fencesBefore lines i % 2 = 0 := by
      have := hop.2
      simpa using this
    rw [insideFence]
    have hsucc : i - 1 + 1 = i := Nat.succ_pred_eq_of_pos hi
    rw [hsucc]
    have : (lines.take i).countP isFenceLine % 2 = 0 := heven
    rw [this]
    rfl

/-- Witness for C4 at the spec's sample document with the inside-fence
candidate. -/
theorem fenced_block_avoidance_witness :
    findFrontmatterEnd ["a".data, "```".data, "code".data, "```".data, "b".data] = none ∧
    (resolveTargetEditable ["a".data, "```".data, "code".data, "```".data, "b".data] 2 =
        1 - 1 ∧
      insideFence ["a".data, "```".data, "code".data, "```".data, "b".data] (1 - 1) =
        false) :=
  ⟨by decide,
    fenced_block_avoidance.1 ["a".data, "```".data, "code".data, "```".data, "b".data]
      2 1 (by decide) (by decide) (by decide) (by decide) (by decide)⟩

/- ### C5 — deferred-removal re-validation -/

theorem hasM_eq_true_iff (cs : List Char) : hasM cs = true ↔ markerL <:+: cs :=
  containsSeq_infix_iff markerL cs

theorem findIdx?_eq_none_of_all_false {α : Type} (p : α → Bool) :
    ∀ (l : List α) (i : ℕ), (∀ x ∈ l, p x = false) → l.findIdx? p i = none := by
  intro l
  induction l with
  | nil => intro i _; rfl
  | cons x xs ih =>
    intro i h
    simp only [List.findIdx?]
    rw [h x (List.mem_cons_self x xs)]
    simp only [Bool.false_eq_true, if_false]
    exact ih (i + 1) (fun y hy => h y (List.mem_cons_of_mem x hy))

/-- A marker-free document has no bookmark line. -/
theorem findBookmark_eq_none (content : List Char) (h : hasM content = false) :
    findBookmark content = none := by
  apply findIdx?_eq_none_of_all_false
  intro p hp
  cases hm : hasM p with
  | false => rfl
  | true =>
    have hinf : markerL <:+: content :=
      ((hasM_eq_true_iff p).mp hm).trans (splitLines_infix_of_piece content p hp)
    exact absurd hinf ((hasM_eq_false_iff content).mp h)

/-- C5 — Deferred-removal re-validation: the deferred removal callback
re-finds the marker by scanning the then-current content (it takes only the
content, no remembered line number); when the marker was removed externally
during the 500 ms window, firing it returns the content unchanged, and the
function is total, so it cannot throw. -/
theorem deferred_removal_revalidation (content : List Char)
    (h : hasM content = false) :
    deferredRemoveTransform content = content := by
  simp only [deferredRemoveTransform, findBookmark_eq_none content h]

/-- Witness for C5 on a concrete marker-free document. -/
theorem deferred_removal_revalidation_witness :
    hasM "hello\nworld".data = false ∧
    deferredRemoveTransform "hello\nworld".data = "hello\nworld".data :=
  ⟨by decide, deferred_removal_revalidation "hello\nworld".data (by decide)⟩

/- ### C6 — the document-wide strip is NOT idempotent in general -/

theorem containsSeq_cons_eq (pat : List Char) (c : Char) (rest : List Char) :
    containsSeq pat (c :: rest) = (pat.isPrefixOf (c :: rest) || containsSeq pat rest) :=
  rfl

theorem hasM_cons_false (c : Char) (rest : List Char) (h : hasM (c :: rest) = false) :
    markerL.isPrefixOf (c :: rest) = false ∧ hasM rest = false := by
  rw [hasM, containsSeq_cons_eq] at h
  exact ⟨by simpa using (Bool.or_eq_false_iff.mp h).1,
    by simpa [hasM] using (Bool.or_eq_false_iff.mp h).2⟩

theorem infix_of_isPrefixOf_drop (pat cs : List Char) (k : ℕ)
    (h : pat.isPrefixOf (cs.drop k) = true) : pat <:+: cs :=
  ((List.isPrefixOf_iff_prefix.mp h).isInfix).trans (List.drop_suffix k cs).isInfix

theorem stripBeforeAux_no_marker :
    ∀ (fuel : ℕ) (cs : List Char), hasM cs = false → stripBeforeAux fuel cs = cs := by
  intro fuel
  induction fuel with
  | zero => intro cs _; rfl
  | succ fuel ih =>
    intro cs h
    cases cs with
    | nil => rfl
    | cons c rest =>
      have h2 := hasM_cons_false c rest h
      have hpre : markerL.isPrefixOf ((c :: rest).drop (wsCount (c :: rest))) = false := by
        cases hp : markerL.isPrefixOf ((c :: rest).drop (wsCount (c :: rest))) with
        | false => rfl
        | true =>
          exact absurd (infix_of_isPrefixOf_drop _ _ _ hp)
            ((hasM_eq_false_iff _).mp h)
      simp only [stripBeforeAux, hpre, Bool.false_eq_true, if_false]
      rw [ih rest h2.2]

theorem stripAfterAux_no_marker :
    ∀ (fuel : ℕ) (cs : List Char), hasM cs = false → stripAfterAux fuel cs = cs := by
  intro fuel
  induction fuel with
  | zero => intro cs _; rfl
  | succ fuel ih =>
    intro cs h
    cases cs with
    | nil => rfl
    | cons c rest =>
      have h2 := hasM_cons_false c rest h
      simp only [stripAfterAux, h2.1, Bool.false_eq_true, if_false]
      rw [ih rest h2.2]

/-- The input refuting idempotence of the cleanup: removing its one literal
marker occurrence splices the surrounding fragments into a fresh marker
occurrence, twice over. -/
def stripCexInput : List Char :=
  "<!-- bookmark-<!-- bookmark-<!-- bookmark-marker -->marker -->marker -->".data

/-- C6 counterexample — the claim `strip(strip(text)) = strip(text)` for all
text is false: on `stripCexInput` the first pass leaves exactly one marker
occurrence (re-formed by the splices), so a second pass changes the text
again. -/
theorem cleanup_strip_not_idempotent :
    cleanupStrip (cleanupStrip stripCexInput) ≠ cleanupStrip stripCexInput := by
  decide

/-- C6 (amended) — stripping a document containing no marker occurrence
returns it unchanged, and consequently the cleanup is idempotent on every
text whose stripped output is marker-free; universal idempotence fails
because a single-pass replacement can splice surrounding text into a fresh
marker occurrence. -/
theorem cleanup_strip_amended (t : List Char) :
    (hasM t = false → cleanupStrip t = t) ∧
    (hasM (cleanupStrip t) = false → cleanupStrip (cleanupStrip t) = cleanupStrip t) := by
  have key : ∀ s : List Char, hasM s = false → cleanupStrip s = s := by
    intro s hs
    rw [cleanupStrip, stripBefore, stripBeforeAux_no_marker _ s hs,
      stripAfter, stripAfterAux_no_marker _ s hs]
  exact ⟨key t, key (cleanupStrip t)⟩

/-- Witness for the amended C6 on a concrete marker-free document. -/
theorem cleanup_strip_amended_witness :
    hasM "plain text".data = false ∧ cleanupStrip "plain text".data = "plain text".data :=
  ⟨by decide, (cleanup_strip_amended "plain text".data).1 (by decide)⟩

/- ### C7 — per-line insertion idempotence -/

theorem hasM_append_marker (l : List Char) : hasM (l ++ ' ' :: markerL) = true := by
  rw [hasM, containsSeq_infix_iff]
  exact ((List.suffix_cons ' ' markerL).trans
    (List.suffix_append l (' ' :: markerL))).isInfix

/-- C7 — Per-line insertion idempotence: inserting the marker at a line
appends a single space followed by the marker token unless the marker is
already present on that line, and applying the insertion twice yields the
same line as applying it once. -/
theorem per_line_insertion_idempotence (l : List Char) :
    insertMarkerAtEndOfLine (insertMarkerAtEndOfLine l) = insertMarkerAtEndOfLine l ∧
    (hasM l = false → insertMarkerAtEndOfLine l = l ++ ' ' :: markerL) ∧
    (hasM l = true → insertMarkerAtEndOfLine l = l) := by
  refine ⟨?_, ?_, ?_⟩
  · cases h : hasM l with
    | true =>
      have h1 : insertMarkerAtEndOfLine l = l := by
        rw [insertMarkerAtEndOfLine, if_pos h]
      rw [h1, h1]
    | false =>
      have h1 : insertMarkerAtEndOfLine l = l ++ ' ' :: markerL := by
        rw [insertMarkerAtEndOfLine, if_neg (by simp [h])]
      have h2 : insertMarkerAtEndOfLine (l ++ ' ' :: markerL) = l ++ ' ' :: markerL := by
        rw [insertMarkerAtEndOfLine, if_pos (hasM_append_marker l)]
      rw [h1, h2]
  · intro h
    rw [insertMarkerAtEndOfLine, if_neg (by simp [h])]
  · intro h
    rw [insertMarkerAtEndOfLine, if_pos h]

/-- Witness for C7 on a concrete line. -/
theorem per_line_insertion_idempotence_witness :
    hasM "ab".data = false ∧
    insertMarkerAtEndOfLine "ab".data = "ab".data ++ ' ' :: markerL :=
  ⟨by decide, (per_line_insertion_idempotence "ab".data).2.1 (by decide)⟩

/- ### C8 — line-ending preservation -/

theorem hasLF_append (l r : List Char) : hasLF (l ++ r) = (hasLF l || hasLF r) := by
  simp [hasLF]

theorem hasLF_of_subset {l sub : List Char} (h : hasLF l = false) (hs : sub ⊆ l) :
    hasLF sub = false := by
  rw [hasLF_eq_false_iff]
  exact fun c hc => (hasLF_eq_false_iff l).mp h c (hs hc)

theorem hasCR_of_subset {l sub : List Char} (h : hasCR l = false) (hs : sub ⊆ l) :
    hasCR sub = false := by
  rw [hasCR_eq_false_iff]
  exact fun c hc => (hasCR_eq_false_iff l).mp h c (hs hc)

theorem getD_mem_or_eq {α : Type} :
    ∀ (l : List α) (n : ℕ) (d : α), l.getD n d ∈ l ∨ l.getD n d = d := by
  intro l
  induction l with
  | nil => intro n d; right; rfl
  | cons x xs ih =>
    intro n d
    cases n with
    | zero => left; simp
    | succ n =>
      rw [List.getD_cons_succ]
      rcases ih n d with h | h
      · exact Or.inl (List.mem_cons_of_mem x h)
      · exact Or.inr h

theorem pieces_set_prop (P : List Char → Prop) (lines : List (List Char))
    (t : ℕ) (x : List Char) (hl : ∀ p ∈ lines, P p) (hx : P x) :
    ∀ p ∈ lines.set t x, P p := by
  intro p hp
  rcases List.mem_or_eq_of_mem_set hp with h | h
  · exact hl p h
  · exact h ▸ hx

theorem insertMarker_no_LF (l : List Char) (h : hasLF l = false) :
    hasLF (insertMarkerAtEndOfLine l) = false := by
  rw [insertMarkerAtEndOfLine]
  split
  · exact h
  · rw [hasLF_append, h]
    decide

theorem insertMarker_no_CR (l : List Char) (h : hasCR l = false) :
    hasCR (insertMarkerAtEndOfLine l) = false := by
  rw [insertMarkerAtEndOfLine]
  split
  · exact h
  · rw [hasCR_append, h]
    decide

theorem removeMarkerOnce_no_LF (l : List Char) (h : hasLF l = false) :
    hasLF (removeMarkerOnce l) = false := by
  rw [removeMarkerOnce]
  cases hidx : idxOfSeq markerL l with
  | none => exact h
  | some mi =>
    simp only
    rw [hasLF_append, hasLF_of_subset h (List.take_subset _ _),
      hasLF_of_subset h (List.drop_subset _ _)]
    rfl

theorem removeMarkerOnce_no_CR (l : List Char) (h : hasCR l = false) :
    hasCR (removeMarkerOnce l) = false := by
  rw [removeMarkerOnce]
  cases hidx : idxOfSeq markerL l with
  | none => exact h
  | some mi =>
    simp only
    rw [hasCR_append, hasCR_of_subset h (List.take_subset _ _),
      hasCR_of_subset h (List.drop_subset _ _)]
    rfl

theorem hasCRLF_eq_false_of_no_CR (content : List Char) (h : hasCR content = false) :
    hasCRLF content = false := by
  cases hc : hasCRLF content with
  | false => rfl
  | true =>
    have hinf : ['\r', '\n'] <:+: content :=
      (containsSeq_infix_iff ['\r', '\n'] content).mp hc
    have : '\r' ∈ content := hinf.subset (List.mem_cons_self '\r' ['\n'])
    exact absurd this (by simpa using (hasCR_eq_false_iff content).mp h '\r')

/-- C8 — Line-ending preservation: the preview-mode marker-insertion and
marker-removal content rewrites detect the document's EOL convention
(`\r\n` present anywhere, else `\n`) and rejoin with it.  Observably: on a
CRLF document every line break of the rewritten text is a full `\r\n` pair
(no lone `\n`), except that the removal callback may return the content
verbatim; and a rewrite of a CR-free document never introduces a `\r`. -/
theorem line_ending_preservation (content : List Char) (visibleLine : ℕ) :
    (hasCRLF content = true →
      hasLoneLF (previewInsertTransform visibleLine content) = false ∧
      (deferredRemoveTransform content = content ∨
        hasLoneLF (deferredRemoveTransform content) = false)) ∧
    (hasCR content = false →
      hasCR (previewInsertTransform visibleLine content) = false ∧
      hasCR (deferredRemoveTransform content) = false) := by
  constructor
  · intro hcrlf
    constructor
    · simp only [previewInsertTransform, hcrlf, if_true]
      rw [hasLoneLF]
      apply joinWith_crlf_no_loneLF
      apply pieces_set_prop (fun p => hasLF p = false)
      · exact splitLines_piece_no_LF content
      · apply insertMarker_no_LF
        rcases getD_mem_or_eq (splitLines content)
            (resolveTargetPreview (splitLines content) visibleLine) [] with h | h
        · exact splitLines_piece_no_LF content _ h
        · rw [h]; rfl
    · cases hfb : findBookmark content with
      | none => left; simp only [deferredRemoveTransform, hfb]
      | some n =>
        cases hln : (splitLines content)[n]? with
        | none => left; simp only [deferredRemoveTransform, hfb, hln]
        | some lineContent =>
          right
          simp only [deferredRemoveTransform, hfb, hln, hcrlf, if_true]
          rw [hasLoneLF]
          apply joinWith_crlf_no_loneLF
          apply pieces_set_prop (fun p => hasLF p = false)
          · exact splitLines_piece_no_LF content
          · exact removeMarkerOnce_no_LF lineContent
              (splitLines_piece_no_LF content lineContent (List.getElem?_mem hln))
  · intro hcr
    have hcrlf : hasCRLF content = false := hasCRLF_eq_false_of_no_CR content hcr
    constructor
    · simp only [previewInsertTransform, hcrlf, Bool.false_eq_true, if_false]
      apply joinWith_lf_no_CR
      apply pieces_set_prop (fun p => hasCR p = false)
      · exact splitLines_piece_no_CR content hcr
      · apply insertMarker_no_CR
        rcases getD_mem_or_eq (splitLines content)
            (resolveTargetPreview (splitLines content) visibleLine) [] with h | h
        · exact splitLines_piece_no_CR content hcr _ h
        · rw [h]; rfl
    · cases hfb : findBookmark content with
      | none => simp only [deferredRemoveTransform, hfb]; exact hcr
      | some n =>
        cases hln : (splitLines content)[n]? with
        | none => simp only [deferredRemoveTransform, hfb, hln]; exact hcr
        | some lineContent =>
          simp only [deferredRemoveTransform, hfb, hln, hcrlf, Bool.false_eq_true, if_false]
          apply joinWith_lf_no_CR
          apply pieces_set_prop (fun p => hasCR p = false)
          · exact splitLines_piece_no_CR content hcr
          · exact removeMarkerOnce_no_CR lineContent
              (splitLines_piece_no_CR content hcr lineContent (List.getElem?_mem hln))

/-- Witness for C8 on a concrete CRLF document containing the marker. -/
theorem line_ending_preservation_witness :
    hasCRLF "a\r\nb <!-- bookmark-marker -->".data = true ∧
    (hasLoneLF (previewInsertTransform 0 "a\r\nb <!-- bookmark-marker -->".data) = false ∧
      (deferredRemoveTransform "a\r\nb <!-- bookmark-marker -->".data =
          "a\r\nb <!-- bookmark-marker -->".data ∨
        hasLoneLF (deferredRemoveTransform "a\r\nb <!-- bookmark-marker -->".data) = false)) :=
  ⟨by decide,
    (line_ending_preservation "a\r\nb <!-- bookmark-marker -->".data 0).1 (by decide)⟩

/- ### C10 — decoration coverage is first-occurrence-only -/

theorem buildDecosAux_filter_line :
    ∀ (ls : List (List Char)) (off : ℕ),
      (buildDecosAux off ls).filter Deco.isLine = lineHighlightSpec off ls := by
  intro ls
  induction ls with
  | nil => intro off; rfl
  | cons l ls ih =>
    intro off
    simp only [buildDecosAux, lineHighlightSpec, List.filter_append, ih]
    congr 1
    cases h : hasM l with
    | false => simp [h]
    | true =>
      cases hidx : idxOfSeq markerL l with
      | none => simp [h, hidx, List.filter, Deco.isLine]
      | some ms => simp [h, hidx, List.filter, Deco.isLine]

theorem buildDecosAux_filter_mark :
    ∀ (ls : List (List Char)) (off : ℕ),
      (buildDecosAux off ls).filter Deco.isMark = hiddenRangeSpec off ls := by
  intro ls
  induction ls with
  | nil => intro off; rfl
  | cons l ls ih =>
    intro off
    simp only [buildDecosAux, hiddenRangeSpec, List.filter_append, ih]
    congr 1
    cases h : hasM l with
    | false => simp [h]
    | true =>
      cases hidx : idxOfSeq markerL l with
      | none => simp [h, hidx, List.filter, Deco.isMark]
      | some ms => simp [h, hidx, List.filter, Deco.isMark]

theorem idxOfSeq_isSome_of_hasM (l : List Char) (h : hasM l = true) :
    ∃ ms, idxOfSeq markerL l = some ms := by
  rw [hasM] at h
  induction l with
  | nil =>
    rw [containsSeq] at h
    exact ⟨0, by rw [idxOfSeq, if_pos h]⟩
  | cons c rest ih =>
    rw [containsSeq_cons_eq, Bool.or_eq_true] at h
    rcases h with h | h
    · exact ⟨0, by rw [idxOfSeq, if_pos h]⟩
    · cases hp : markerL.isPrefixOf (c :: rest) with
      | true => exact ⟨0, by rw [idxOfSeq, if_pos hp]⟩
      | false =>
        obtain ⟨ms, hms⟩ := ih h
        refine ⟨ms + 1, ?_⟩
        rw [idxOfSeq, if_neg (by simp [hp]), hms]
        rfl

theorem lineHighlightSpec_length :
    ∀ (ls : List (List Char)) (off : ℕ),
      (lineHighlightSpec off ls).length = ls.countP hasM := by
  intro ls
  induction ls with
  | nil => intro off; rfl
  | cons l ls ih =>
    intro off
    simp only [lineHighlightSpec, List.length_append, ih, List.countP_cons]
    cases h : hasM l with
    | false => simp [h]
    | true => simp [h, Nat.add_comm]

theorem hiddenRangeSpec_length :
    ∀ (ls : List (List Char)) (off : ℕ),
      (hiddenRangeSpec off ls).length = ls.countP hasM := by
  intro ls
  induction ls with
  | nil => intro off; rfl
  | cons l ls ih =>
    intro off
    simp only [hiddenRangeSpec, List.length_append, ih, List.countP_cons]
    cases h : hasM l with
    | false => simp [h]
    | true =>
      obtain ⟨ms, hms⟩ := idxOfSeq_isSome_of_hasM l h
      simp [h, hms, Nat.add_comm]

/-- Function `idxOfSeq` returns the index of the FIRST occurrence: the pattern matches
there and at no earlier position. -/
theorem idxOfSeq_first (pat : List Char) :
    ∀ (cs : List Char) (i : ℕ), idxOfSeq pat cs = some i →
      pat.isPrefixOf (cs.drop i) = true ∧
      ∀ j < i, pat.isPrefixOf (cs.drop j) = false := by
  intro cs
  induction cs with
  | nil =>
    intro i h
    rw [idxOfSeq] at h
    split at h
    next hp =>
      cases h
      exact ⟨hp, fun j hj => absurd hj (Nat.not_lt_zero j)⟩
    next => exact Option.noConfusion h
  | cons c rest ih =>
    intro i h
    rw [idxOfSeq] at h
    split at h
    next hp =>
      cases h
      exact ⟨by simpa using hp, fun j hj => absurd hj (Nat.not_lt_zero j)⟩
    next hp =>
      cases hr : idxOfSeq pat rest with
      | none => rw [hr] at h; exact Option.noConfusion h
      | some i2 =>
        rw [hr] at h
        have hi : i2 + 1 = i := by simpa using h
        subst hi
        obtain ⟨ih1, ih2⟩ := ih i2 hr
        constructor
        · simpa [List.drop_succ_cons] using ih1
        · intro j hj
          cases j with
          | zero =>
            simpa [List.drop_zero] using Bool.not_eq_true _ ▸ (by simpa using hp)
          | succ j2 =>
            simpa [List.drop_succ_cons] using ih2 j2 (by omega)

/-- C10 — Decoration coverage is first-occurrence-only: the decoration
builder's output, filtered to line highlights, is exactly one highlight per
line containing the marker (anchored at the line start), and filtered to
hidden-text marks, exactly one range per such line, starting at the line's
first marker occurrence (`idxOfSeq`) and spanning exactly the marker; by
`idxOfSeq_first`-style minimality (last conjunct) no later occurrence on a
line receives a hiding decoration. -/
theorem decoration_first_occurrence_only (content : List Char) :
    (buildDecorations content).filter Deco.isLine = lineHighlightSpec 0 (splitLF content) ∧
    (buildDecorations content).filter Deco.isMark = hiddenRangeSpec 0 (splitLF content) ∧
    (lineHighlightSpec 0 (splitLF content)).length = (splitLF content).countP hasM ∧
    (hiddenRangeSpec 0 (splitLF content)).length = (splitLF content).countP hasM ∧
    (∀ (l : List Char) (i : ℕ), idxOfSeq markerL l = some i →
      markerL.isPrefixOf (l.drop i) = true ∧
      ∀ j < i, markerL.isPrefixOf (l.drop j) = false) :=
  ⟨buildDecosAux_filter_line (splitLF content) 0,
   buildDecosAux_filter_mark (splitLF content) 0,
   lineHighlightSpec_length (splitLF content) 0,
   hiddenRangeSpec_length (splitLF content) 0,
   fun l i h => idxOfSeq_first markerL l i h⟩

/-- Witness for C10 on a concrete line holding two marker occurrences. -/
theorem decoration_first_occurrence_only_witness :
    idxOfSeq markerL "x <!-- bookmark-marker --> <!-- bookmark-marker -->".data = some 2 ∧
    (markerL.isPrefixOf (("x <!-- bookmark-marker --> <!-- bookmark-marker -->".data).drop 2)
        = true ∧
      ∀ j < 2, markerL.isPrefixOf
        (("x <!-- bookmark-marker --> <!-- bookmark-marker -->".data).drop j) = false) :=
  ⟨by decide,
    (decoration_first_occurrence_only
        "x <!-- bookmark-marker --> <!-- bookmark-marker -->".data).2.2.2.2
      "x <!-- bookmark-marker --> <!-- bookmark-marker -->".data 2 (by decide)⟩

end Bookmark
